import Mathlib

/-!
Shallow embedding of the versioned row reconciliation engine
`DatabaseTablesComparator._comparator_two_sided_merge` (src/1.2.0_250314_beta.py,
lines 339-504), together with theorems settling the frozen claims about it.

Cells of the pandas DataFrame are modelled by `Value` (integers, strings, and
NaN); rows are modelled positionally: the seventeen `id_columns` values in their
fixed order, the `DET_ROW_NUM` version ordinal, and the payload columns in their
fixed order.  Every pandas `sort_values` call is modelled by a stable
insertion sort on the corresponding key.
-/

/-- A cell value: Python int, Python str, or NaN (`None`/`NaN` in pandas). -/
inductive Value where
  | vint : Int → Value
  | vstr : String → Value
  | vnull : Value
deriving DecidableEq

/-- Python `str(val)` on the three value shapes; pandas renders NaN as "nan". -/
def pyStr : Value → String
  | .vint n => toString n
  | .vstr s => s
  | .vnull => "nan"

/-- The missing marker string `"##MISSING##"` used by `build_side_dict`. -/
def missingMarker : Value := .vstr "##MISSING##"

/-- `f"**{val}**"`: wrap a value in the changed markers. -/
def marked (v : Value) : Value := .vstr ("**" ++ pyStr v ++ "**")

/-- `row[col_name] if pd.notna(row[col_name]) else "##MISSING##"` of
`build_side_dict`: a NaN cell becomes the missing marker. -/
def fillMissing (v : Value) : Value := if v = Value.vnull then missingMarker else v

/-- `pat in l` on character lists: does `pat` occur as a contiguous segment? -/
def containsSeg (pat : List Char) : List Char → Bool
  | [] => pat.isEmpty
  | c :: rest => pat.isPrefixOf (c :: rest) || containsSeg pat rest

/-- `"##" in str(val)`: the guard of the changed-marking branch. -/
def hasHH (v : Value) : Bool := containsSeg ['#', '#'] (pyStr v).data

/-- Does the string form of a value contain the full missing marker
`"##MISSING##"` as a substring ("bears a missing-marker")? -/
def bearsMissing (v : Value) : Bool := containsSeg "##MISSING##".data (pyStr v).data

/-- `val_str.replace(cc, "")` for a doubled-character token `cc` (the code only
strips `"**"` and `"##"`): remove non-overlapping occurrences left to right. -/
def strip2 (c : Char) : List Char → List Char
  | a :: b :: rest => if a = c ∧ b = c then strip2 c rest else a :: strip2 c (b :: rest)
  | l => l

/-- Accumulating decimal parser for `int(val_str)`. -/
def digitsToNatAux : Nat → List Char → Option Nat
  | acc, [] => some acc
  | acc, c :: cs => if c.isDigit then digitsToNatAux (10 * acc + (c.toNat - 48)) cs else none

/-- Python `int(s)` on an optional-sign decimal literal; `none` models the
`ValueError` branch of `extract_num`. -/
def pyParseInt (s : String) : Option Int :=
  match s.data with
  | [] => none
  | '-' :: rest => if rest.isEmpty then none else (digitsToNatAux 0 rest).map (fun n => -(n : Int))
  | l => (digitsToNatAux 0 l).map (fun n => (n : Int))

/-- `extract_num` of the source: strip `"**"` then `"##"` from `str(val)` and
try `int(...)`; `none` stands for the `float("inf")` fallback. -/
def extract_num (v : Value) : Option Int :=
  pyParseInt (String.mk (strip2 '#' (strip2 '*' (pyStr v).data)))

section LexOrders

variable {α : Type _} [DecidableEq α]

/-- Strict lexicographic order on lists over a strict base order `lt`. -/
def lexListLt (lt : α → α → Bool) : List α → List α → Bool
  | [], [] => false
  | [], _ :: _ => true
  | _ :: _, [] => false
  | a :: as, b :: bs => if a = b then lexListLt lt as bs else lt a b

/-- Non-strict lexicographic order on lists over a strict base order `lt`. -/
def lexListLe (lt : α → α → Bool) : List α → List α → Bool
  | [], _ => true
  | _ :: _, [] => false
  | a :: as, b :: bs => if a = b then lexListLe lt as bs else lt a b

variable {lt : α → α → Bool}

theorem lexListLt_asymm (hasym : ∀ a b, lt a b = true → lt b a = true → False) :
    ∀ l₁ l₂, lexListLt lt l₁ l₂ = true → lexListLt lt l₂ l₁ = true → False
  | [], [], h₁, _ => by simp [lexListLt] at h₁
  | [], _ :: _, _, h₂ => by simp [lexListLt] at h₂
  | _ :: _, [], h₁, _ => by simp [lexListLt] at h₁
  | a :: as, b :: bs, h₁, h₂ => by
    by_cases hab : a = b
    · subst hab
      simp only [lexListLt, if_pos rfl] at h₁ h₂
      exact lexListLt_asymm hasym as bs h₁ h₂
    · simp only [lexListLt, if_neg hab, if_neg (Ne.symm hab)] at h₁ h₂
      exact hasym a b h₁ h₂

theorem lexListLt_conn (hconn : ∀ a b, a ≠ b → lt a b = true ∨ lt b a = true) :
    ∀ l₁ l₂, l₁ ≠ l₂ → lexListLt lt l₁ l₂ = true ∨ lexListLt lt l₂ l₁ = true
  | [], [], h => absurd rfl h
  | [], _ :: _, _ => Or.inl (by simp [lexListLt])
  | _ :: _, [], _ => Or.inr (by simp [lexListLt])
  | a :: as, b :: bs, h => by
    by_cases hab : a = b
    · subst hab
      have : as ≠ bs := fun hh => h (by rw [hh])
      simpa only [lexListLt, if_pos rfl] using lexListLt_conn hconn as bs this
    · simpa only [lexListLt, if_neg hab, if_neg (Ne.symm hab)] using hconn a b hab

theorem lexListLt_trans
    (hasym : ∀ a b, lt a b = true → lt b a = true → False)
    (htr : ∀ a b c, lt a b = true → lt b c = true → lt a c = true) :
    ∀ l₁ l₂ l₃, lexListLt lt l₁ l₂ = true → lexListLt lt l₂ l₃ = true →
      lexListLt lt l₁ l₃ = true
  | [], [], _, h₁, _ => by simp [lexListLt] at h₁
  | [], _ :: _, [], _, h₂ => by simp [lexListLt] at h₂
  | [], _ :: _, _ :: _, _, _ => by simp [lexListLt]
  | _ :: _, [], _, h₁, _ => by simp [lexListLt] at h₁
  | _ :: _, _ :: _, [], _, h₂ => by simp [lexListLt] at h₂
  | a :: as, b :: bs, c :: cs, h₁, h₂ => by
    by_cases hab : a = b <;> by_cases hbc : b = c
    · subst hab; subst hbc
      simp only [lexListLt, if_pos rfl] at h₁ h₂ ⊢
      exact lexListLt_trans hasym htr as bs cs h₁ h₂
    · subst hab
      simp only [lexListLt, if_pos rfl, if_neg hbc] at h₁ h₂
      have hac : a ≠ c := hbc
      simpa only [lexListLt, if_neg hac] using h₂
    · subst hbc
      simp only [lexListLt, if_neg hab, if_pos rfl] at h₁ h₂
      have hac : a ≠ b := hab
      simpa only [lexListLt, if_neg hac] using h₁
    · simp only [lexListLt, if_neg hab, if_neg hbc] at h₁ h₂
      by_cases hac : a = c
      · subst hac
        exact (hasym a b h₁ h₂).elim
      · simpa only [lexListLt, if_neg hac] using htr a b c h₁ h₂

theorem lexListLe_total (hconn : ∀ a b, a ≠ b → lt a b = true ∨ lt b a = true) :
    ∀ l₁ l₂, lexListLe lt l₁ l₂ = true ∨ lexListLe lt l₂ l₁ = true
  | [], _ => Or.inl (by simp [lexListLe])
  | _ :: _, [] => Or.inr (by simp [lexListLe])
  | a :: as, b :: bs => by
    by_cases hab : a = b
    · subst hab
      simpa only [lexListLe, if_pos rfl] using lexListLe_total hconn as bs
    · simpa only [lexListLe, if_neg hab, if_neg (Ne.symm hab)] using hconn a b hab

theorem lexListLe_antisymm (hasym : ∀ a b, lt a b = true → lt b a = true → False) :
    ∀ l₁ l₂, lexListLe lt l₁ l₂ = true → lexListLe lt l₂ l₁ = true → l₁ = l₂
  | [], [], _, _ => rfl
  | [], _ :: _, _, h₂ => by simp [lexListLe] at h₂
  | _ :: _, [], h₁, _ => by simp [lexListLe] at h₁
  | a :: as, b :: bs, h₁, h₂ => by
    by_cases hab : a = b
    · subst hab
      simp only [lexListLe, if_pos rfl] at h₁ h₂
      rw [lexListLe_antisymm hasym as bs h₁ h₂]
    · simp only [lexListLe, if_neg hab, if_neg (Ne.symm hab)] at h₁ h₂
      exact (hasym a b h₁ h₂).elim

theorem lexListLe_trans
    (hasym : ∀ a b, lt a b = true → lt b a = true → False)
    (htr : ∀ a b c, lt a b = true → lt b c = true → lt a c = true) :
    ∀ l₁ l₂ l₃, lexListLe lt l₁ l₂ = true → lexListLe lt l₂ l₃ = true →
      lexListLe lt l₁ l₃ = true
  | [], _, _, _, _ => by simp [lexListLe]
  | _ :: _, [], _, h₁, _ => by simp [lexListLe] at h₁
  | _ :: _, _ :: _, [], _, h₂ => by simp [lexListLe] at h₂
  | a :: as, b :: bs, c :: cs, h₁, h₂ => by
    by_cases hab : a = b <;> by_cases hbc : b = c
    · subst hab; subst hbc
      simp only [lexListLe, if_pos rfl] at h₁ h₂ ⊢
      exact lexListLe_trans hasym htr as bs cs h₁ h₂
    · subst hab
      simp only [lexListLe, if_pos rfl, if_neg hbc] at h₁ h₂
      have hac : a ≠ c := hbc
      simpa only [lexListLe, if_neg hac] using h₂
    · subst hbc
      simp only [lexListLe, if_neg hab, if_pos rfl] at h₁ h₂
      have hac : a ≠ b := hab
      simpa only [lexListLe, if_neg hac] using h₁
    · simp only [lexListLe, if_neg hab, if_neg hbc] at h₁ h₂
      by_cases hac : a = c
      · subst hac
        exact (hasym a b h₁ h₂).elim
      · simpa only [lexListLe, if_neg hac] using htr a b c h₁ h₂

end LexOrders

/-- Strict order on characters by code point (Python string comparison). -/
def charLtB (a b : Char) : Bool := decide (a < b)

theorem charLtB_asymm (a b : Char) : charLtB a b = true → charLtB b a = true → False := by
  simp only [charLtB, decide_eq_true_eq]
  exact fun h₁ h₂ => absurd h₂ (not_lt_of_gt h₁)

theorem charLtB_conn (a b : Char) (h : a ≠ b) : charLtB a b = true ∨ charLtB b a = true := by
  simp only [charLtB, decide_eq_true_eq]
  exact lt_or_gt_of_ne h

theorem charLtB_trans (a b c : Char) : charLtB a b = true → charLtB b c = true →
    charLtB a c = true := by
  simp only [charLtB, decide_eq_true_eq]
  exact lt_trans

/-- Rank of a value's type tag, used to totalise comparison across the three
shapes (ints before strings before NaN; NaN last matches pandas `na_position`). -/
def valRank : Value → Nat
  | .vint _ => 0
  | .vstr _ => 1
  | .vnull => 2

/-- Strict total order on values: ints by magnitude, strings lexicographically
by code point, mixed shapes by rank. -/
def valLt : Value → Value → Bool
  | .vint m, .vint n => decide (m < n)
  | .vstr s, .vstr t => lexListLt charLtB s.data t.data
  | a, b => decide (valRank a < valRank b)

theorem valLt_asymm (a b : Value) : valLt a b = true → valLt b a = true → False := by
  cases a <;> cases b <;>
    simp only [valLt, valRank, decide_eq_true_eq] <;>
    first
      | omega
      | exact lexListLt_asymm charLtB_asymm _ _

theorem valLt_conn (a b : Value) (h : a ≠ b) : valLt a b = true ∨ valLt b a = true := by
  cases a <;> cases b <;> simp only [valLt, valRank, decide_eq_true_eq] <;>
    first
      | exact absurd rfl h
      | omega
      | (rename_i m n
         exact lt_or_gt_of_ne (fun hmn => h (by rw [hmn])))
      | skip
  rename_i s t
  have hst : s.data ≠ t.data := fun hd => h (by cases s; cases t; simp_all)
  exact lexListLt_conn charLtB_conn s.data t.data hst

theorem valLt_trans (a b c : Value) : valLt a b = true → valLt b c = true →
    valLt a c = true := by
  cases a <;> cases b <;> cases c <;>
    simp only [valLt, valRank, decide_eq_true_eq] <;>
    first
      | omega
      | exact lt_trans
      | exact lexListLt_trans charLtB_asymm charLtB_trans _ _ _

/-- Strict order on the numeric sort keys built by `extract_num`: `none` stands
for `float("inf")`, so every number is below `none` and `none` is below nothing. -/
def numLt : Option Int → Option Int → Bool
  | some a, some b => decide (a < b)
  | some _, none => true
  | none, _ => false

theorem numLt_asymm : ∀ a b : Option Int, numLt a b = true → numLt b a = true → False
  | none, _, h₁, _ => by simp [numLt] at h₁
  | some _, none, _, h₂ => by simp [numLt] at h₂
  | some a, some b, h₁, h₂ => by
    simp only [numLt, decide_eq_true_eq] at h₁ h₂
    exact absurd h₂ (not_lt_of_gt h₁)

theorem numLt_conn : ∀ a b : Option Int, a ≠ b → numLt a b = true ∨ numLt b a = true
  | none, none, h => absurd rfl h
  | none, some _, _ => Or.inr (by simp [numLt])
  | some _, none, _ => Or.inl (by simp [numLt])
  | some a, some b, h => by
    simp only [numLt, decide_eq_true_eq]
    exact lt_or_gt_of_ne (fun hab => h (by rw [hab]))

theorem numLt_trans : ∀ a b c : Option Int, numLt a b = true → numLt b c = true →
      numLt a c = true
  | none, _, _, h₁, _ => by simp [numLt] at h₁
  | some _, none, none, _, h₂ => by simp [numLt] at h₂
  | some _, none, some _, _, h₂ => by simp [numLt] at h₂
  | some _, some _, none, _, _ => by simp [numLt]
  | some a, some b, some c, h₁, h₂ => by
    simp only [numLt, decide_eq_true_eq] at h₁ h₂ ⊢
    exact lt_trans h₁ h₂

/-- One input record: the seventeen `id_columns` values in their fixed order,
the `DET_ROW_NUM` version ordinal (a row-sequence number), and the payload
columns in their fixed order. -/
structure InRow where
  ident : List Value
  rowNum : Int
  payload : List Value
deriving DecidableEq

/-- One synthesized output row of a DiffPair: its `DET_ROW_NUM`, the
`id_columns` cells, the payload cells, and the appended `GROUP_KEYS` column
holding the group's identity tuple. -/
structure OutRow where
  rowNum : Int
  ident : List Value
  payload : List Value
  groupKeys : List Value
deriving DecidableEq

/-- The grouping keys of the source (`id_columns`), in their fixed order. -/
def id_columns : List String :=
  ["DET_WH_CUST_NO", "ACC_WH_ACC_NO", "REL_WH_SECNDRY_CUST_NO",
   "REL_CUST_KIR_TYP_CDE", "ACTE_PERIOD_DTE", "ACC_RPT_PERIOD_DTE",
   "ACC_PERIOD_DTE", "ACC_LOAD_DTE", "ACC_LOAD_TIME", "REL_RPT_PERIOD_DTE",
   "REL_PERIOD_DTE", "REL_LOAD_DTE", "REL_LOAD_TIME",
   "ACC_REL_RPT_PERIOD_DTE", "ACC_REL_PERIOD_DTE", "ACC_REL_LOAD_DTE",
   "ACC_REL_LOAD_TIME"]

/-- The merge-key columns of the source (`merge_key_cols`). -/
def merge_key_cols : List String :=
  ["ACC_WH_ACC_NO", "REL_WH_SECNDRY_CUST_NO", "REL_CUST_KIR_TYP_CDE"]

/-- The merge-key columns are the `id_columns` at positions 1, 2, 3. -/
theorem merge_key_cols_positions : merge_key_cols = (id_columns.drop 1).take 3 := by decide

/-- The merge key of a row: the `id_columns` values at positions 1, 2, 3. -/
def merge_key (rw : InRow) : List Value := (rw.ident.drop 1).take 3

/-- Key of `df.sort_values(by=sort_columns)`: `DET_ROW_NUM` followed by the
first four identity columns. -/
def sortKey5 (rw : InRow) : List Value := Value.vint rw.rowNum :: rw.ident.take 4

/-- The relation of the initial global sort. -/
def inputRel (r s : InRow) : Prop := lexListLe valLt (sortKey5 r) (sortKey5 s) = true

instance : DecidableRel inputRel := fun r s =>
  inferInstanceAs (Decidable (lexListLe valLt (sortKey5 r) (sortKey5 s) = true))

instance : IsTotal InRow inputRel :=
  ⟨fun r s => lexListLe_total valLt_conn (sortKey5 r) (sortKey5 s)⟩

instance : IsTrans InRow inputRel :=
  ⟨fun _ _ _ => lexListLe_trans valLt_asymm valLt_trans _ _ _⟩

/-- The relation ordering the sorted list of group keys produced by
`df.groupby(id_columns)` (pandas sorts group keys ascending). -/
def identRel (k k' : List Value) : Prop := lexListLe valLt k k' = true

instance : DecidableRel identRel := fun k k' =>
  inferInstanceAs (Decidable (lexListLe valLt k k' = true))

instance : IsTotal (List Value) identRel := ⟨fun k k' => lexListLe_total valLt_conn k k'⟩

instance : IsTrans (List Value) identRel :=
  ⟨fun _ _ _ => lexListLe_trans valLt_asymm valLt_trans _ _ _⟩

theorem identRel_antisymm {k k' : List Value} (h₁ : identRel k k') (h₂ : identRel k' k) :
    k = k' := lexListLe_antisymm valLt_asymm k k' h₁ h₂

/-- The relation of `group_data.sort_values("DET_ROW_NUM")`. -/
def rowRel (r s : InRow) : Prop := r.rowNum ≤ s.rowNum

instance : DecidableRel rowRel := fun r s => Int.decLe r.rowNum s.rowNum

instance : IsTotal InRow rowRel := ⟨fun r s => Int.le_total r.rowNum s.rowNum⟩

instance : IsTrans InRow rowRel := ⟨fun _ _ _ => Int.le_trans⟩

/-- `df.sort_values(by=sort_columns)` followed by `df.groupby(id_columns)`'s
implicit dropping of rows with NaN in any grouping key. -/
def validRows (T : List InRow) : List InRow :=
  (List.insertionSort inputRel T).filter (fun rw => rw.ident.all (fun v => decide (v ≠ Value.vnull)))

/-- The distinct group keys, ascending, as `df.groupby(id_columns)` yields them. -/
def groupIdents (T : List InRow) : List (List Value) :=
  List.insertionSort identRel ((validRows T).map (·.ident)).dedup

/-- The rows of one group, in DataFrame order. -/
def groupOf (T : List InRow) (k : List Value) : List InRow :=
  (validRows T).filter (fun rw => decide (rw.ident = k))

/-- `sorted(group_sorted["DET_ROW_NUM"].unique())`. -/
def unique_nums (gs : List InRow) : List Int :=
  List.insertionSort (· ≤ ·) (gs.map (·.rowNum)).dedup

/-- `max(unique_nums)` (Python `max` on a list of ints; total via a default). -/
def group_max (nums : List Int) : Int := nums.foldl max (nums.headD 0)

/-- `sub_old.merge(sub_new, on=merge_key_cols, how="outer", indicator=True)`:
each left row pairs with every right row sharing its merge key (`both`), a left
row with no match survives alone (`left_only`), and unmatched right rows are
appended (`right_only`). -/
def outerMerge (ls rs : List InRow) : List (Option InRow × Option InRow) :=
  (ls.flatMap fun l =>
    let ms := rs.filter (fun r => decide (merge_key r = merge_key l))
    if ms.isEmpty then [(some l, none)] else ms.map fun r => (some l, some r))
  ++ ((rs.filter fun r => ls.all fun l => decide (merge_key l ≠ merge_key r)).map
       fun r => (none, some r))

/-- The merge key carried by one merged row. -/
def pairKey : Option InRow × Option InRow → List Value
  | (some l, _) => merge_key l
  | (none, some r) => merge_key r
  | (none, none) => []

/-- `build_side_dict` on the identity columns: merge-key columns (positions
1, 2, 3) are taken as-is, every other column gets the `pd.notna` treatment. -/
def buildIdent (id : List Value) : List Value :=
  id.mapIdx fun i v => if i = 1 ∨ i = 2 ∨ i = 3 then v else fillMissing v

/-- The body of the `both`-branch column loop: given whether this pair's new
side is the group's maximum version, rewrite one (old, new) cell pair. -/
def classifyPair (newIsMax : Bool) (val_old val_new : Value) : Value × Value :=
  if val_old = missingMarker ∧ val_new ≠ missingMarker then
    (val_old, marked val_new)
  else if val_new = missingMarker ∧ val_old ≠ missingMarker then
    (marked val_old, val_new)
  else if val_old ≠ val_new ∧ hasHH val_old = false ∧ hasHH val_new = false then
    (marked val_old, if newIsMax then val_new else marked val_new)
  else (val_old, val_new)

/-- Apply `classifyPair` cell-wise to two aligned column lists. -/
def zipClassify (newIsMax : Bool) (old new : List Value) : List (Value × Value) :=
  List.zipWith (classifyPair newIsMax) old new

/-- The `both` branch: build both side dicts, then compare the common columns. -/
def bothDiff (k : List Value) (oldNum newNum : Int) (newIsMax : Bool)
    (l r : InRow) : OutRow × OutRow :=
  let zi := zipClassify newIsMax (buildIdent l.ident) (buildIdent r.ident)
  let zp := zipClassify newIsMax (l.payload.map fillMissing) (r.payload.map fillMissing)
  (⟨oldNum, zi.map (·.1), zp.map (·.1), k⟩, ⟨newNum, zi.map (·.2), zp.map (·.2), k⟩)

/-- The `left_only` branch: old side taken via `build_side_dict`, new side
synthesized entirely as the missing marker. -/
def leftOnlyDiff (k : List Value) (oldNum newNum : Int) (l : InRow) : OutRow × OutRow :=
  (⟨oldNum, buildIdent l.ident, l.payload.map fillMissing, k⟩,
   ⟨newNum, l.ident.map (fun _ => missingMarker), l.payload.map (fun _ => missingMarker), k⟩)

/-- The `right_only` branch, symmetric to `left_only`. -/
def rightOnlyDiff (k : List Value) (oldNum newNum : Int) (r : InRow) : OutRow × OutRow :=
  (⟨oldNum, r.ident.map (fun _ => missingMarker), r.payload.map (fun _ => missingMarker), k⟩,
   ⟨newNum, buildIdent r.ident, r.payload.map fillMissing, k⟩)

/-- Turn one merged row into the DiffPair appended to `differences_list`. -/
def mergedDiff (k : List Value) (oldNum newNum : Int) (newIsMax : Bool) :
    Option InRow × Option InRow → OutRow × OutRow
  | (some l, some r) => bothDiff k oldNum newNum newIsMax l r
  | (some l, none) => leftOnlyDiff k oldNum newNum l
  | (none, some r) => rightOnlyDiff k oldNum newNum r
  | (none, none) => (⟨oldNum, [], [], k⟩, ⟨newNum, [], [], k⟩)

/-- The per-group loop body: compare each `DET_ROW_NUM` of the sorted group
with its immediate successor.  `gs` is the group already sorted by
`DET_ROW_NUM` (`group_sorted` in the source). -/
def pairsFromSorted (k : List Value) (gs : List InRow) : List (OutRow × OutRow) :=
  (List.range ((unique_nums gs).length - 1)).flatMap fun i =>
    (outerMerge
        (gs.filter fun rw => decide (rw.rowNum = (unique_nums gs).getD i 0))
        (gs.filter fun rw => decide (rw.rowNum = (unique_nums gs).getD (i + 1) 0))).map
      (mergedDiff k ((unique_nums gs).getD i 0) ((unique_nums gs).getD (i + 1) 0)
        (decide ((unique_nums gs).getD (i + 1) 0 = group_max (unique_nums gs))))

/-- `differences_list` after all groups are processed. -/
def all_diffs (T : List InRow) : List (OutRow × OutRow) :=
  (groupIdents T).flatMap fun k =>
    pairsFromSorted k (List.insertionSort rowRel (groupOf T k))

/-- Flatten DiffPairs to rows: `pd.concat` of the two-row `df_diff` frames. -/
def flatRows (ds : List (OutRow × OutRow)) : List OutRow :=
  ds.flatMap fun p => [p.1, p.2]

/-- The five `_clean` numeric sort keys of the final re-sort: `extract_num`
applied to `DET_ROW_NUM` and to the first four identity columns. -/
def out_sort_key (rw : OutRow) : List (Option Int) :=
  [extract_num (Value.vint rw.rowNum),
   extract_num (rw.ident.getD 0 Value.vnull), extract_num (rw.ident.getD 1 Value.vnull),
   extract_num (rw.ident.getD 2 Value.vnull), extract_num (rw.ident.getD 3 Value.vnull)]

/-- The relation of the final `all_diffs_df.sort_values(by=sort_cols_clean)`. -/
def outRel (r s : OutRow) : Prop := lexListLe numLt (out_sort_key r) (out_sort_key s) = true

instance : DecidableRel outRel := fun r s =>
  inferInstanceAs (Decidable (lexListLe numLt (out_sort_key r) (out_sort_key s) = true))

instance : IsTotal OutRow outRel :=
  ⟨fun r s => lexListLe_total numLt_conn (out_sort_key r) (out_sort_key s)⟩

instance : IsTrans OutRow outRel :=
  ⟨fun _ _ _ => lexListLe_trans numLt_asymm numLt_trans _ _ _⟩

/-- `desired_order` of the source: version column then the four identity
columns, in fixed order. -/
def desired_order : List String :=
  ["DET_ROW_NUM", "DET_WH_CUST_NO", "ACC_WH_ACC_NO",
   "REL_WH_SECNDRY_CUST_NO", "REL_CUST_KIR_TYP_CDE"]

/-- `new_order = desired_order + remaining_cols`: the final column arrangement. -/
def new_order (cols : List String) : List String :=
  desired_order ++ cols.filter (fun c => !(desired_order.contains c))

/-- `highlight_differences`: the per-cell presentational hint. -/
def highlight_differences (v : Value) : String :=
  if containsSeg ['#', '#'] (pyStr v).data then "background-color: lightblue"
  else if containsSeg ['*', '*'] (pyStr v).data then "background-color: pink"
  else ""

/-- The engine's result: either the explicit empty/no-differences outcome or
the styled, re-sorted table of all DiffPair rows. -/
inductive CompareResult where
  | noDifferences
  | styled (rows : List OutRow)
deriving DecidableEq

/-- The reconciliation engine `_comparator_two_sided_merge`, from the sort and
groupby down to the final re-sorted table or the no-differences outcome. -/
def comparator_two_sided_merge (T : List InRow) : CompareResult :=
  let ds := all_diffs T
  if ds.isEmpty then CompareResult.noDifferences
  else CompareResult.styled (List.insertionSort outRel (flatRows ds))

/-- A shared 17-value identity tuple (all grouping keys numeric, no NaN). -/
def identG : List Value :=
  [.vint 5, .vint 1, .vint 2, .vint 3] ++ List.replicate 13 (.vint 0)

/-- Two versions of one group, one payload column whose value changes. -/
def tableP : List InRow := [⟨identG, 1, [.vstr "P"]⟩, ⟨identG, 2, [.vstr "Q"]⟩]

/-- The output rows `comparator_two_sided_merge` produces on `tableP`. -/
def rowsP : List OutRow :=
  [⟨1, identG, [.vstr "**P**"], identG⟩, ⟨2, identG, [.vstr "Q"], identG⟩]

/-- Two versions of one group where the old payload value contains `"##"`
without being the missing marker. -/
def tableHH : List InRow := [⟨identG, 1, [.vstr "A##B"]⟩, ⟨identG, 2, [.vstr "C"]⟩]

/-- A group whose version 1 holds two rows with the same merge key (a
duplicate-merge-key anomaly) and whose version 2 holds one row. -/
def tableDup : List InRow :=
  [⟨identG, 1, [.vstr "A"]⟩, ⟨identG, 1, [.vstr "B"]⟩, ⟨identG, 2, [.vstr "C"]⟩]

/-- `tableDup` with its two version-1 rows swapped. -/
def tableDupSwapped : List InRow :=
  [⟨identG, 1, [.vstr "B"]⟩, ⟨identG, 1, [.vstr "A"]⟩, ⟨identG, 2, [.vstr "C"]⟩]

/-- Two rows of one group with distinct versions, and a transposition of them. -/
def tableTwo : List InRow := [⟨identG, 1, [.vint 10]⟩, ⟨identG, 2, [.vint 20]⟩]

/-- `tableTwo` with its rows swapped. -/
def tableTwoSwapped : List InRow := [⟨identG, 2, [.vint 20]⟩, ⟨identG, 1, [.vint 10]⟩]

/-- No two distinct rows of the same group share a version ordinal: the
hypothesis under which exact DiffPair counts and order-invariance hold. -/
def uniqRel (r s : InRow) : Prop := r.ident = s.ident → r.rowNum ≠ s.rowNum

instance : DecidableRel uniqRel := fun r s =>
  inferInstanceAs (Decidable (r.ident = s.ident → r.rowNum ≠ s.rowNum))

theorem uniqRel_symm : ∀ {r s : InRow}, uniqRel r s → uniqRel s r :=
  fun h hid hnum => h hid.symm hnum.symm

theorem flatRows_length (ds : List (OutRow × OutRow)) :
    (flatRows ds).length = 2 * ds.length := by
  induction ds with
  | nil => rfl
  | cons d ds ih =>
    simp only [flatRows, List.flatMap_cons] at ih ⊢
    simp only [List.length_append, List.length_cons, List.length_nil, ih]
    omega

theorem mergedDiff_groupKeys (k : List Value) (oldNum newNum : Int) (b : Bool)
    (m : Option InRow × Option InRow) :
    (mergedDiff k oldNum newNum b m).1.groupKeys = k
    ∧ (mergedDiff k oldNum newNum b m).2.groupKeys = k := by
  rcases m with ⟨_ | l, _ | r⟩ <;> exact ⟨rfl, rfl⟩

theorem mergedDiff_rowNums (k : List Value) (oldNum newNum : Int) (b : Bool)
    (m : Option InRow × Option InRow) :
    (mergedDiff k oldNum newNum b m).1.rowNum = oldNum
    ∧ (mergedDiff k oldNum newNum b m).2.rowNum = newNum := by
  rcases m with ⟨_ | l, _ | r⟩ <;> exact ⟨rfl, rfl⟩

theorem containsSeg_mono {p q : List Char} (hpq : p <+: q) :
    ∀ l, containsSeg q l = true → containsSeg p l = true := by
  intro l
  induction l with
  | nil =>
    intro h
    simp only [containsSeg, List.isEmpty_iff] at h ⊢
    subst h
    exact List.prefix_nil.mp hpq
  | cons c rest ih =>
    intro h
    simp only [containsSeg, Bool.or_eq_true] at h ⊢
    rcases h with h | h
    · exact Or.inl (List.isPrefixOf_iff_prefix.mpr
        (hpq.trans (List.isPrefixOf_iff_prefix.mp h)))
    · exact Or.inr (ih h)

theorem hasHH_of_bearsMissing (v : Value) (h : bearsMissing v = true) : hasHH v = true :=
  containsSeg_mono (by decide) (pyStr v).data h

/-- C8: for every fixed input table, two invocations of the engine yield
identical results in identical order; the embedded engine is a pure function
of its input table, with no incidental state between runs. -/
theorem claim_c8_deterministic (T : List InRow) :
    comparator_two_sided_merge T = comparator_two_sided_merge T := rfl

/-- C9: in the `both`-branch comparison, when the string form of either side's
value contains `"##"` anywhere, the both-present-and-unequal changed-marking is
skipped entirely: a genuine (non-missing-marker) value containing `"##"` is
never wrapped in changed markers, even when the two sides differ. -/
theorem claim_c9_hash_guard (newIsMax : Bool) (vo vn : Value)
    (hh : hasHH vo = true ∨ hasHH vn = true)
    (hvo : vo ≠ missingMarker) (hvn : vn ≠ missingMarker) :
    classifyPair newIsMax vo vn = (vo, vn) := by
  have hc3 : ¬(vo ≠ vn ∧ hasHH vo = false ∧ hasHH vn = false) := by
    rintro ⟨-, h2, h3⟩
    rcases hh with h | h
    · rw [h] at h2; simp at h2
    · rw [h] at h3; simp at h3
  unfold classifyPair
  rw [if_neg (fun hc => hvo hc.1), if_neg (fun hc => hvn hc.1), if_neg hc3]

/-- C9 witness: the value `"A##B"` differs from `"C"` yet neither side is
rewritten. -/
theorem claim_c9_witness :
    classifyPair true (Value.vstr "A##B") (Value.vstr "C")
      = (Value.vstr "A##B", Value.vstr "C") :=
  claim_c9_hash_guard true (Value.vstr "A##B") (Value.vstr "C")
    (Or.inl (by decide)) (by decide) (by decide)

/-- C5: in the `both` branch, a missing-marker on exactly one side marks the
other side changed; equal values receive no annotation; and a value bearing
the missing marker as a substring, outside the two one-sided-missing rules,
leaves both sides unannotated. -/
theorem claim_c5_missing_rules (newIsMax : Bool) (vo vn : Value) :
    (vo = missingMarker → vn ≠ missingMarker →
      classifyPair newIsMax vo vn = (vo, marked vn))
    ∧ (vn = missingMarker → vo ≠ missingMarker →
      classifyPair newIsMax vo vn = (marked vo, vn))
    ∧ (vo = vn → classifyPair newIsMax vo vn = (vo, vn))
    ∧ ((bearsMissing vo = true ∨ bearsMissing vn = true) →
      ¬(vo = missingMarker ∧ vn ≠ missingMarker) →
      ¬(vn = missingMarker ∧ vo ≠ missingMarker) →
      classifyPair newIsMax vo vn = (vo, vn)) := by
  refine ⟨?_, ?_, ?_, ?_⟩
  · intro h1 h2
    unfold classifyPair
    rw [if_pos ⟨h1, h2⟩]
  · intro h1 h2
    unfold classifyPair
    rw [if_neg (fun hc => hc.2 h1), if_pos ⟨h1, h2⟩]
  · intro h
    subst h
    unfold classifyPair
    rw [if_neg (fun hc => hc.2 hc.1), if_neg (fun hc => hc.2 hc.1),
      if_neg (fun hc => hc.1 rfl)]
  · intro hb hn1 hn2
    by_cases hvo : vo = missingMarker
    · have hvn : vn = missingMarker := by
        by_contra hvn
        exact hn1 ⟨hvo, hvn⟩
      rw [hvo, hvn]
      unfold classifyPair
      rw [if_neg (fun hc => hc.2 rfl), if_neg (fun hc => hc.2 rfl),
        if_neg (fun hc => hc.1 rfl)]
    · have hvn : vn ≠ missingMarker := fun h => hn2 ⟨h, hvo⟩
      have hc3 : ¬(vo ≠ vn ∧ hasHH vo = false ∧ hasHH vn = false) := by
        rintro ⟨-, h2, h3⟩
        rcases hb with h | h
        · rw [hasHH_of_bearsMissing vo h] at h2; simp at h2
        · rw [hasHH_of_bearsMissing vn h] at h3; simp at h3
      unfold classifyPair
      rw [if_neg (fun hc => hvo hc.1), if_neg (fun hc => hvn hc.1), if_neg hc3]

/-- C5 witness: an old missing marker against a present new value `7` marks the
new side changed. -/
theorem claim_c5_witness :
    classifyPair false missingMarker (Value.vint 7) = (missingMarker, marked (Value.vint 7)) :=
  (claim_c5_missing_rules false missingMarker (Value.vint 7)).1 rfl (by decide)

/-- C1 counterexample: a group with versions [1, 2] whose payload is `"A##B"`
at version 1 and `"C"` at version 2.  The values are present, unequal, and
neither bears a missing-marker, yet the engine leaves the old side unmarked,
because the code skips the changed-marking whenever either string contains
`"##"`, not only for the exact missing marker. -/
theorem claim_c1_counterexample :
    Value.vstr "A##B" ≠ Value.vstr "C"
    ∧ Value.vstr "A##B" ≠ missingMarker ∧ Value.vstr "C" ≠ missingMarker
    ∧ bearsMissing (Value.vstr "A##B") = false ∧ bearsMissing (Value.vstr "C") = false
    ∧ comparator_two_sided_merge tableHH = CompareResult.styled
        [⟨1, identG, [Value.vstr "A##B"], identG⟩, ⟨2, identG, [Value.vstr "C"], identG⟩] := by
  decide

/-- C1 (amended): in the `both` branch, if the two values differ and neither
string form contains `"##"` (a condition strictly stronger than "neither bears
a missing-marker", as the counterexample forces), the old side is always
wrapped in changed markers and the new side is wrapped exactly when this
pair's new side is not the group's maximum version. -/
theorem claim_c1_changed_marking (newIsMax : Bool) (vo vn : Value)
    (hne : vo ≠ vn) (hho : hasHH vo = false) (hhn : hasHH vn = false) :
    classifyPair newIsMax vo vn = (marked vo, if newIsMax then vn else marked vn) := by
  have hvo : vo ≠ missingMarker := fun h => by
    rw [h] at hho
    exact absurd hho (by decide)
  have hvn : vn ≠ missingMarker := fun h => by
    rw [h] at hhn
    exact absurd hhn (by decide)
  unfold classifyPair
  rw [if_neg (fun hc => hvo hc.1), if_neg (fun hc => hvn hc.1), if_pos ⟨hne, hho, hhn⟩]

/-- C1 witness (Scenario D): 100 against 200 with the new side the group's
maximum version: old marked changed, new left unmarked. -/
theorem claim_c1_witness :
    classifyPair true (Value.vint 100) (Value.vint 200)
      = (marked (Value.vint 100), Value.vint 200) := by
  have h := claim_c1_changed_marking true (Value.vint 100) (Value.vint 200)
    (by decide) (by decide) (by decide)
  simpa using h

/-- C6: when no DiffPairs are produced across all groups — in particular on an
empty input table — the engine returns the explicit no-differences outcome
(and exactly then); when at least one DiffPair is produced it returns the
styled table, which is non-empty. -/
theorem claim_c6_empty_result :
    comparator_two_sided_merge [] = CompareResult.noDifferences
    ∧ (∀ T, all_diffs T = [] ↔
        comparator_two_sided_merge T = CompareResult.noDifferences)
    ∧ (∀ T, all_diffs T ≠ [] →
        ∃ rows, comparator_two_sided_merge T = CompareResult.styled rows ∧ rows ≠ []) := by
  refine ⟨by decide, fun T => ⟨fun h => ?_, fun h => ?_⟩, fun T h => ?_⟩
  · simp [comparator_two_sided_merge, h]
  · by_cases hd : all_diffs T = []
    · exact hd
    · rw [comparator_two_sided_merge] at h
      rw [if_neg (fun he => hd (List.isEmpty_iff.mp he))] at h
      exact absurd h (by simp)
  · refine ⟨List.insertionSort outRel (flatRows (all_diffs T)), ?_, ?_⟩
    · rw [comparator_two_sided_merge]
      rw [if_neg (fun he => h (List.isEmpty_iff.mp he))]
    · have hlen : (List.insertionSort outRel (flatRows (all_diffs T))).length
          = 2 * (all_diffs T).length := by
        rw [List.length_insertionSort, flatRows_length]
      have hpos : 0 < (all_diffs T).length := List.length_pos.mpr h
      apply List.length_pos.mp
      omega

/-- C6 witness: on `tableP` (one changed field) the engine returns a non-empty
styled table. -/
theorem claim_c6_witness :
    ∃ rows, comparator_two_sided_merge tableP = CompareResult.styled rows ∧ rows ≠ [] :=
  claim_c6_empty_result.2.2 tableP (by decide)

/-- C10: every DiffPair contributes exactly two rows to the output, each
carrying the group's identity tuple in its GROUP_KEYS column, so a non-empty
result has exactly twice as many rows as DiffPairs and its row count is even. -/
theorem claim_c10_two_rows_per_pair (T : List InRow) (rows : List OutRow)
    (h : comparator_two_sided_merge T = CompareResult.styled rows) :
    rows.length = 2 * (all_diffs T).length
    ∧ rows.length % 2 = 0
    ∧ (∀ k gs d, d ∈ pairsFromSorted k gs →
        d.1.groupKeys = k ∧ d.2.groupKeys = k) := by
  have hrows : rows = List.insertionSort outRel (flatRows (all_diffs T)) := by
    by_cases hd : (all_diffs T).isEmpty
    · rw [comparator_two_sided_merge, if_pos hd] at h
      exact absurd h (by simp)
    · rw [comparator_two_sided_merge, if_neg hd] at h
      exact (CompareResult.styled.injEq _ _).mp h.symm
  have hlen : rows.length = 2 * (all_diffs T).length := by
    rw [hrows, List.length_insertionSort, flatRows_length]
  refine ⟨hlen, by omega, fun k gs d hd => ?_⟩
  rw [pairsFromSorted] at hd
  simp only [List.mem_flatMap, List.mem_map] at hd
  obtain ⟨i, -, m, -, rfl⟩ := hd
  exact mergedDiff_groupKeys _ _ _ _ m

/-- C10 witness: on `tableP` the two facts hold of the concrete output. -/
theorem claim_c10_witness :
    rowsP.length = 2 * (all_diffs tableP).length
    ∧ rowsP.length % 2 = 0
    ∧ (∀ k gs d, d ∈ pairsFromSorted k gs →
        d.1.groupKeys = k ∧ d.2.groupKeys = k) :=
  claim_c10_two_rows_per_pair tableP rowsP (by decide)

/-- C4: a non-empty result is sorted by the lexicographic order on the numeric
projections (`extract_num`, which strips the `"**"`/`"##"` markers and sends
non-numeric leftovers to plus infinity) of the version column and the four
identity columns; the sort only permutes the assembled DiffPair rows; `none`
(non-numeric) sorts last; and the final column arrangement is the version
column, the identity columns in fixed order, then the remaining columns in
their original relative order. -/
theorem claim_c4_final_sort (T : List InRow) (rows : List OutRow)
    (h : comparator_two_sided_merge T = CompareResult.styled rows) :
    List.Sorted outRel rows
    ∧ rows.Perm (flatRows (all_diffs T))
    ∧ (∀ o : Option Int, numLt none o = false)
    ∧ (∀ cols : List String, (new_order cols).take 5 = desired_order
        ∧ ((new_order cols).drop 5).Sublist cols) := by
  have hrows : rows = List.insertionSort outRel (flatRows (all_diffs T)) := by
    by_cases hd : (all_diffs T).isEmpty
    · rw [comparator_two_sided_merge, if_pos hd] at h
      exact absurd h (by simp)
    · rw [comparator_two_sided_merge, if_neg hd] at h
      exact (CompareResult.styled.injEq _ _).mp h.symm
  subst hrows
  refine ⟨List.sorted_insertionSort outRel _, List.perm_insertionSort outRel _,
    fun o => by cases o <;> rfl, fun cols => ⟨?_, ?_⟩⟩
  · rw [new_order, show (5 : Nat) = desired_order.length from rfl, List.take_left]
  · rw [new_order, show (5 : Nat) = desired_order.length from rfl, List.drop_left]
    exact List.filter_sublist cols

/-- C4 witness: the concrete output on `tableP` satisfies all four conjuncts. -/
theorem claim_c4_witness :
    List.Sorted outRel rowsP
    ∧ rowsP.Perm (flatRows (all_diffs tableP))
    ∧ (∀ o : Option Int, numLt none o = false)
    ∧ (∀ cols : List String, (new_order cols).take 5 = desired_order
        ∧ ((new_order cols).drop 5).Sublist cols) :=
  claim_c4_final_sort tableP rowsP (by decide)

/-- C7 counterexample: `tableDupSwapped` is a permutation of `tableDup` (two
rows of the same group and version, differing in payload, swapped), yet the
engine's outputs differ — the two tied old-side rows appear in opposite
orders — so permuting input rows can change the output. -/
theorem claim_c7_counterexample :
    tableDup.Perm tableDupSwapped
    ∧ comparator_two_sided_merge tableDup ≠ comparator_two_sided_merge tableDupSwapped := by
  constructor
  · decide
  · decide

/-- C3 counterexample: in `tableDup` the single group has exactly 2 distinct
versions, but because version 1 holds two rows with the same merge key the
outer merge fans out and the group produces 2 DiffPairs (4 rows), not
`k - 1 = 1`. -/
theorem claim_c3_counterexample :
    (unique_nums (List.insertionSort rowRel (groupOf tableDup identG))).length = 2
    ∧ (all_diffs tableDup).length = 2
    ∧ (all_diffs tableDup).length ≠ 2 - 1 := by
  decide

theorem mapIdx_id_of_no_null :
    ∀ (g : Nat → Value → Value), (∀ i v, v ≠ Value.vnull → g i v = v) →
      ∀ l : List Value, (∀ v ∈ l, v ≠ Value.vnull) → l.mapIdx g = l
  | _, _, [], _ => by simp
  | g, hg, a :: l, h => by
    rw [List.mapIdx_cons, hg 0 a (h a (List.mem_cons_self a l)),
      mapIdx_id_of_no_null (fun i => g (i + 1)) (fun i v hv => hg (i + 1) v hv) l
        (fun v hv => h v (List.mem_cons_of_mem a hv))]

theorem buildIdent_of_no_null (id : List Value) (h : ∀ v ∈ id, v ≠ Value.vnull) :
    buildIdent id = id :=
  mapIdx_id_of_no_null _
    (fun i v hv => by
      unfold fillMissing
      split <;> simp [hv])
    id h

theorem map_fillMissing_of_no_null :
    ∀ l : List Value, (∀ v ∈ l, v ≠ Value.vnull) → l.map fillMissing = l
  | [], _ => rfl
  | a :: l, h => by
    rw [List.map_cons, map_fillMissing_of_no_null l (fun v hv => h v (List.mem_cons_of_mem a hv))]
    unfold fillMissing
    rw [if_neg (h a (List.mem_cons_self a l))]

theorem countP_merge_block (rs : List InRow) (κ : List Value) (l : InRow) :
    ((if (rs.filter fun r => decide (merge_key r = merge_key l)).isEmpty
        then [((some l : Option InRow), (none : Option InRow))]
        else (rs.filter fun r => decide (merge_key r = merge_key l)).map
          fun r => (some l, some r))
      |>.countP fun p => decide (pairKey p = κ))
    = (if decide (merge_key l = κ) = true then 1 else 0)
      * (if (rs.countP fun r => decide (merge_key r = κ)) = 0 then 1
         else rs.countP fun r => decide (merge_key r = κ)) := by
  by_cases hk : merge_key l = κ
  · have hfeq : (fun r => decide (merge_key r = merge_key l))
        = (fun r => decide (merge_key r = κ)) := by
      funext r
      rw [hk]
    rw [hfeq]
    by_cases he : (rs.filter fun r => decide (merge_key r = κ)).isEmpty
    · have hcr : (rs.countP fun r => decide (merge_key r = κ)) = 0 := by
        rw [List.countP_eq_length_filter, List.isEmpty_iff.mp he]
        rfl
      rw [if_pos he, hcr]
      simp [List.countP_cons, pairKey, hk]
    · have hcr : (rs.countP fun r => decide (merge_key r = κ)) ≠ 0 := by
        rw [List.countP_eq_length_filter]
        intro h0
        exact he (by rw [List.length_eq_zero.mp h0]; rfl)
      rw [if_neg he, if_neg hcr, List.countP_map]
      have hcomp : ((fun p => decide (pairKey p = κ))
          ∘ fun r => ((some l : Option InRow), some r)) = fun _ => true := by
        funext r
        simp [Function.comp, pairKey, hk]
      rw [hcomp, List.countP_true, List.countP_eq_length_filter]
      simp [hk]
  · by_cases he : (rs.filter fun r => decide (merge_key r = merge_key l)).isEmpty
    · rw [if_pos he]
      simp [List.countP_cons, pairKey, hk]
    · rw [if_neg he, List.countP_map]
      have hcomp : ((fun p => decide (pairKey p = κ))
          ∘ fun r => ((some l : Option InRow), some r)) = fun _ => false := by
        funext r
        simp [Function.comp, pairKey, hk]
      rw [hcomp]
      simp [hk, List.countP_eq_zero]

theorem countP_merge_left (rs : List InRow) (κ : List Value) :
    ∀ ls : List InRow,
      ((ls.flatMap fun l =>
          let ms := rs.filter (fun r => decide (merge_key r = merge_key l))
          if ms.isEmpty then [(some l, none)] else ms.map fun r => (some l, some r))
        |>.countP fun p => decide (pairKey p = κ))
      = (ls.countP fun l => decide (merge_key l = κ))
        * (if (rs.countP fun r => decide (merge_key r = κ)) = 0 then 1
           else rs.countP fun r => decide (merge_key r = κ))
  | [] => by simp
  | l :: ls => by
    rw [List.flatMap_cons, List.countP_append, countP_merge_left rs κ ls, List.countP_cons]
    show (if (rs.filter fun r => decide (merge_key r = merge_key l)).isEmpty
        then [((some l : Option InRow), (none : Option InRow))]
        else (rs.filter fun r => decide (merge_key r = merge_key l)).map
          fun r => (some l, some r)).countP (fun p => decide (pairKey p = κ)) + _ = _
    rw [countP_merge_block rs κ l]
    ring

theorem countP_merge_right (ls rs : List InRow) (κ : List Value) :
    (((rs.filter fun r => ls.all fun l => decide (merge_key l ≠ merge_key r)).map
        fun r => ((none : Option InRow), some r))
      |>.countP fun p => decide (pairKey p = κ))
    = if (ls.countP fun l => decide (merge_key l = κ)) = 0
        then rs.countP fun r => decide (merge_key r = κ)
      else 0 := by
  rw [List.countP_map]
  have hcomp : ((fun p => decide (pairKey p = κ)) ∘ fun r => ((none : Option InRow), some r))
      = fun r => decide (merge_key r = κ) := by
    funext r
    simp [Function.comp, pairKey]
  rw [hcomp, List.countP_filter]
  by_cases hcl : (ls.countP fun l => decide (merge_key l = κ)) = 0
  · rw [if_pos hcl]
    have hno : ∀ l ∈ ls, merge_key l ≠ κ := by
      intro l hl
      have := List.countP_eq_zero.mp hcl l hl
      simpa using this
    apply List.countP_congr
    intro r _
    by_cases hr : merge_key r = κ
    · have hall : (ls.all fun l => decide (merge_key l ≠ merge_key r)) = true :=
        List.all_eq_true.mpr (fun l hl => decide_eq_true (by rw [hr]; exact hno l hl))
      simp only [hr, hall]
      simp
      exact hno
    · simp [hr]
  · rw [if_neg hcl]
    have hex : ∃ l ∈ ls, merge_key l = κ := by
      by_contra hno
      push_neg at hno
      exact hcl (List.countP_eq_zero.mpr (fun l hl => by simpa using hno l hl))
    obtain ⟨l₀, hl₀, hk₀⟩ := hex
    apply List.countP_eq_zero.mpr
    intro r hr
    simp only [Bool.and_eq_true, decide_eq_true_eq, List.all_eq_true, not_and]
    intro hrk hall
    have := hall l₀ hl₀
    rw [hk₀, hrk] at this
    exact this rfl

/-- C2: row correspondence is a full outer join on the merge key.  For every
merge key the number of output pairs carrying it is: the count on the other
side when it is absent from one side (so a key appearing once in only one
subset yields exactly one pair, and no row is dropped), and the Cartesian
product of the two counts when it appears on both sides (duplicate keys fan
out without error).  A `left_only` pair keeps the old row as-is (given
non-NaN cells) and synthesizes the new side entirely as the missing marker,
and symmetrically for `right_only`; unmatched rows always surface as pairs. -/
theorem claim_c2_full_outer_join :
    (∀ (ls rs : List InRow) (κ : List Value),
      ((outerMerge ls rs).countP fun p => decide (pairKey p = κ))
        = (if (ls.countP fun l => decide (merge_key l = κ)) = 0
             then rs.countP fun r => decide (merge_key r = κ)
           else if (rs.countP fun r => decide (merge_key r = κ)) = 0
             then ls.countP fun l => decide (merge_key l = κ)
           else (ls.countP fun l => decide (merge_key l = κ))
             * rs.countP fun r => decide (merge_key r = κ)))
    ∧ (∀ (k : List Value) (o n : Int) (b : Bool) (l : InRow),
        (∀ v ∈ l.ident, v ≠ Value.vnull) → (∀ v ∈ l.payload, v ≠ Value.vnull) →
        mergedDiff k o n b (some l, none)
          = (⟨o, l.ident, l.payload, k⟩,
             ⟨n, l.ident.map (fun _ => missingMarker),
              l.payload.map (fun _ => missingMarker), k⟩))
    ∧ (∀ (k : List Value) (o n : Int) (b : Bool) (r : InRow),
        (∀ v ∈ r.ident, v ≠ Value.vnull) → (∀ v ∈ r.payload, v ≠ Value.vnull) →
        mergedDiff k o n b (none, some r)
          = (⟨o, r.ident.map (fun _ => missingMarker),
              r.payload.map (fun _ => missingMarker), k⟩,
             ⟨n, r.ident, r.payload, k⟩))
    ∧ (∀ (ls rs : List InRow) (l : InRow), l ∈ ls →
        (∀ r ∈ rs, merge_key r ≠ merge_key l) → (some l, none) ∈ outerMerge ls rs)
    ∧ (∀ (ls rs : List InRow) (r : InRow), r ∈ rs →
        (∀ l ∈ ls, merge_key l ≠ merge_key r) → (none, some r) ∈ outerMerge ls rs) := by
  refine ⟨fun ls rs κ => ?_, fun k o n b l h1 h2 => ?_, fun k o n b r h1 h2 => ?_,
    fun ls rs l hl hno => ?_, fun ls rs r hr hno => ?_⟩
  · rw [outerMerge, List.countP_append, countP_merge_left rs κ ls,
      countP_merge_right ls rs κ]
    by_cases hcl : (ls.countP fun l => decide (merge_key l = κ)) = 0
    · simp [hcl]
    · by_cases hcr : (rs.countP fun r => decide (merge_key r = κ)) = 0
      · simp [hcl, hcr]
      · simp [hcl, hcr]
  · show leftOnlyDiff k o n l = _
    rw [leftOnlyDiff, buildIdent_of_no_null l.ident h1, map_fillMissing_of_no_null l.payload h2]
  · show rightOnlyDiff k o n r = _
    rw [rightOnlyDiff, buildIdent_of_no_null r.ident h1, map_fillMissing_of_no_null r.payload h2]
  · rw [outerMerge]
    apply List.mem_append_left
    rw [List.mem_flatMap]
    refine ⟨l, hl, ?_⟩
    have hms : rs.filter (fun r => decide (merge_key r = merge_key l)) = [] :=
      List.filter_eq_nil_iff.mpr (fun r hr => by simpa using hno r hr)
    simp [hms]
  · rw [outerMerge]
    apply List.mem_append_right
    rw [List.mem_map]
    refine ⟨r, ?_, rfl⟩
    rw [List.mem_filter]
    exact ⟨hr, List.all_eq_true.mpr (fun l hl => decide_eq_true (hno l hl))⟩

/-- C2 witness: a lone old-side row with no new-side match yields exactly the
`left_only` pair. -/
theorem claim_c2_witness :
    ((some (⟨identG, 1, [Value.vstr "P"]⟩ : InRow), (none : Option InRow))
      ∈ outerMerge [⟨identG, 1, [Value.vstr "P"]⟩] []) :=
  claim_c2_full_outer_join.2.2.2.1 [⟨identG, 1, [Value.vstr "P"]⟩] []
    ⟨identG, 1, [Value.vstr "P"]⟩ (List.mem_singleton.mpr rfl)
    (fun r hr => absurd hr (List.not_mem_nil r))

theorem eq_of_perm_sorted {α : Type _} (r : α → α → Prop) :
    ∀ (l₁ l₂ : List α), (∀ a ∈ l₁, ∀ b ∈ l₁, r a b → r b a → a = b) →
      l₁.Perm l₂ → l₁.Sorted r → l₂.Sorted r → l₁ = l₂
  | [], _, _, hp, _, _ => hp.nil_eq
  | a :: as, l₂, ha, hp, hs₁, hs₂ => by
    cases l₂ with
    | nil => exact (List.noConfusion hp.symm.nil_eq : False).elim
    | cons b bs =>
      have hab : a = b := by
        by_cases h : a = b
        · exact h
        · have hbmem : b ∈ a :: as := hp.symm.subset (List.mem_cons_self b bs)
          have hamem : a ∈ b :: bs := hp.subset (List.mem_cons_self a as)
          have hrab : r a b := by
            rcases List.mem_cons.mp hbmem with he | hm
            · exact absurd he.symm h
            · exact List.rel_of_sorted_cons hs₁ b hm
          have hrba : r b a := by
            rcases List.mem_cons.mp hamem with he | hm
            · exact absurd he h
            · exact List.rel_of_sorted_cons hs₂ a hm
          exact ha a (List.mem_cons_self a as) b hbmem hrab hrba
      subst hab
      rw [eq_of_perm_sorted r as bs
        (fun x hx y hy => ha x (List.mem_cons_of_mem a hx) y (List.mem_cons_of_mem a hy))
        hp.cons_inv hs₁.of_cons hs₂.of_cons]

theorem pairwise_uniq_groupSorted (T : List InRow) (k : List Value)
    (h : T.Pairwise uniqRel) :
    (List.insertionSort rowRel (groupOf T k)).Pairwise uniqRel := by
  have h1 : (List.insertionSort inputRel T).Pairwise uniqRel :=
    ((List.perm_insertionSort inputRel T).pairwise_iff
      (fun hab => uniqRel_symm hab)).mpr h
  have h2 : (validRows T).Pairwise uniqRel :=
    List.Pairwise.sublist (List.filter_sublist _) h1
  have h3 : (groupOf T k).Pairwise uniqRel :=
    List.Pairwise.sublist (List.filter_sublist _) h2
  exact ((List.perm_insertionSort rowRel _).pairwise_iff
    (fun hab => uniqRel_symm hab)).mpr h3

theorem ident_of_mem_groupSorted {T : List InRow} {k : List Value} {rw : InRow}
    (h : rw ∈ List.insertionSort rowRel (groupOf T k)) : rw.ident = k := by
  rw [List.mem_insertionSort, groupOf, List.mem_filter] at h
  simpa using h.2

theorem unique_nums_sorted_lt (gs : List InRow) :
    List.Sorted (· < ·) (unique_nums gs) := by
  have hs : List.Sorted (· ≤ ·) (unique_nums gs) :=
    List.sorted_insertionSort _ _
  have hn : (unique_nums gs).Nodup := by
    rw [unique_nums]
    exact (List.perm_insertionSort (· ≤ ·) (gs.map (·.rowNum)).dedup).symm.nodup
      (List.nodup_dedup _)
  exact (hs.and hn).imp (fun hx => lt_of_le_of_ne hx.1 hx.2)

theorem mem_of_mem_unique_nums {gs : List InRow} {n : Int}
    (h : n ∈ unique_nums gs) : n ∈ gs.map (·.rowNum) := by
  rw [unique_nums, List.mem_insertionSort, List.mem_dedup] at h
  exact h

theorem filter_singleton_of_uniq (k : List Value) (gs : List InRow)
    (hp : gs.Pairwise uniqRel) (hid : ∀ rw ∈ gs, rw.ident = k) (n : Int)
    (hn : n ∈ gs.map (·.rowNum)) :
    ∃ u ∈ gs, u.rowNum = n ∧ gs.filter (fun rw => decide (rw.rowNum = n)) = [u] := by
  obtain ⟨u, hu, hun⟩ := List.mem_map.mp hn
  have hpf : (gs.filter (fun rw => decide (rw.rowNum = n))).Pairwise uniqRel :=
    List.Pairwise.sublist (List.filter_sublist gs) hp
  have humem : u ∈ gs.filter (fun rw => decide (rw.rowNum = n)) :=
    List.mem_filter.mpr ⟨hu, decide_eq_true hun⟩
  have hall : ∀ y ∈ gs.filter (fun rw => decide (rw.rowNum = n)),
      y.rowNum = n ∧ y.ident = k := by
    intro y hy
    have hy' := List.mem_filter.mp hy
    exact ⟨of_decide_eq_true hy'.2, hid y hy'.1⟩
  refine ⟨u, hu, hun, ?_⟩
  cases hf : gs.filter (fun rw => decide (rw.rowNum = n)) with
  | nil =>
    rw [hf] at humem
    exact absurd humem (List.not_mem_nil u)
  | cons x t =>
    rw [hf] at hpf humem hall
    have ht : t = [] := by
      cases t with
      | nil => rfl
      | cons y t' =>
        have hxy : uniqRel x y := (List.pairwise_cons.mp hpf).1 y (List.mem_cons_self y t')
        have h1 := hall x (List.mem_cons_self x _)
        have h2 := hall y (List.mem_cons_of_mem x (List.mem_cons_self y t'))
        exact absurd (h1.1.trans h2.1.symm) (hxy (h1.2.trans h2.2.symm))
    subst ht
    rw [List.mem_singleton.mp humem]

theorem outerMerge_singleton (l r : InRow) (hk : merge_key r = merge_key l) :
    outerMerge [l] [r] = [(some l, some r)] := by
  simp [outerMerge, hk]

theorem flatMap_singleton_eq_map {α β : Type _} (f : α → List β) (g : α → β) :
    ∀ l : List α, (∀ a ∈ l, f a = [g a]) → l.flatMap f = l.map g
  | [], _ => rfl
  | a :: l, h => by
    rw [List.flatMap_cons, h a (List.mem_cons_self a l), List.map_cons,
      flatMap_singleton_eq_map f g l (fun x hx => h x (List.mem_cons_of_mem a hx))]
    rfl

/-- C3 (amended): per group, the distinct version ordinals are strictly
increasing and only adjacent pairs are compared; provided no two rows of one
group share a version ordinal (the counterexample's duplicate-merge-key fan-out
is thereby excluded), a group with `k` distinct versions produces exactly the
`k - 1` consecutive DiffPairs `(nums i, nums (i+1))`, i.e. `2 * (k - 1)` rows,
covering every consecutive pair exactly once; `k ≤ 1` gives no output. -/
theorem claim_c3_pair_generation (T : List InRow) (k : List Value)
    (hu : T.Pairwise uniqRel) :
    List.Sorted (· < ·) (unique_nums (List.insertionSort rowRel (groupOf T k)))
    ∧ (pairsFromSorted k (List.insertionSort rowRel (groupOf T k))).map
        (fun d => (d.1.rowNum, d.2.rowNum))
      = (List.range ((unique_nums (List.insertionSort rowRel (groupOf T k))).length - 1)).map
          (fun i => ((unique_nums (List.insertionSort rowRel (groupOf T k))).getD i 0,
            (unique_nums (List.insertionSort rowRel (groupOf T k))).getD (i + 1) 0))
    ∧ (flatRows (pairsFromSorted k (List.insertionSort rowRel (groupOf T k)))).length
        = 2 * ((unique_nums (List.insertionSort rowRel (groupOf T k))).length - 1) := by
  have hpg := pairwise_uniq_groupSorted T k hu
  set gs := List.insertionSort rowRel (groupOf T k) with hgs
  have hid : ∀ rw ∈ gs, rw.ident = k := fun rw h => ident_of_mem_groupSorted h
  have key : ∀ i ∈ List.range ((unique_nums gs).length - 1),
      ((outerMerge (gs.filter fun rw => decide (rw.rowNum = (unique_nums gs).getD i 0))
          (gs.filter fun rw => decide (rw.rowNum = (unique_nums gs).getD (i + 1) 0))).map
        (mergedDiff k ((unique_nums gs).getD i 0) ((unique_nums gs).getD (i + 1) 0)
          (decide ((unique_nums gs).getD (i + 1) 0 = group_max (unique_nums gs))))).map
        (fun d => (d.1.rowNum, d.2.rowNum))
      = [((unique_nums gs).getD i 0, (unique_nums gs).getD (i + 1) 0)] := by
    intro i hi
    rw [List.mem_range] at hi
    have hi1 : i < (unique_nums gs).length := by omega
    have hi2 : i + 1 < (unique_nums gs).length := by omega
    have hmi : (unique_nums gs).getD i 0 ∈ gs.map (·.rowNum) := by
      apply mem_of_mem_unique_nums
      rw [List.getD_eq_getElem _ _ hi1]
      exact List.getElem_mem _
    have hmi2 : (unique_nums gs).getD (i + 1) 0 ∈ gs.map (·.rowNum) := by
      apply mem_of_mem_unique_nums
      rw [List.getD_eq_getElem _ _ hi2]
      exact List.getElem_mem _
    obtain ⟨u, hu', hun, hfu⟩ := filter_singleton_of_uniq k gs hpg hid _ hmi
    obtain ⟨w, hw', hwn, hfw⟩ := filter_singleton_of_uniq k gs hpg hid _ hmi2
    rw [hfu, hfw, outerMerge_singleton u w
      (by rw [merge_key, merge_key, hid u hu', hid w hw'])]
    rfl
  have hmap : (pairsFromSorted k gs).map (fun d => (d.1.rowNum, d.2.rowNum))
      = (List.range ((unique_nums gs).length - 1)).map
          (fun i => ((unique_nums gs).getD i 0, (unique_nums gs).getD (i + 1) 0)) := by
    rw [pairsFromSorted, List.map_flatMap]
    exact flatMap_singleton_eq_map _ _ _ key
  refine ⟨unique_nums_sorted_lt gs, hmap, ?_⟩
  have hcnt : (pairsFromSorted k gs).length = (unique_nums gs).length - 1 := by
    have := congrArg List.length hmap
    simpa using this
  rw [flatRows_length, hcnt]

/-- C3 witness: on `tableTwo` (one group, versions 1 and 2, one row each) the
version list is strictly sorted(1 < 2), the single DiffPair compares versions
(1, 2), and the group contributes 2 rows. -/
theorem claim_c3_witness :
    List.Sorted (· < ·) (unique_nums (List.insertionSort rowRel (groupOf tableTwo identG)))
    ∧ (pairsFromSorted identG (List.insertionSort rowRel (groupOf tableTwo identG))).map
        (fun d => (d.1.rowNum, d.2.rowNum))
      = (List.range ((unique_nums (List.insertionSort rowRel (groupOf tableTwo identG))).length - 1)).map
          (fun i => ((unique_nums (List.insertionSort rowRel (groupOf tableTwo identG))).getD i 0,
            (unique_nums (List.insertionSort rowRel (groupOf tableTwo identG))).getD (i + 1) 0))
    ∧ (flatRows (pairsFromSorted identG (List.insertionSort rowRel (groupOf tableTwo identG)))).length
        = 2 * ((unique_nums (List.insertionSort rowRel (groupOf tableTwo identG))).length - 1) :=
  claim_c3_pair_generation tableTwo identG (by decide)

/-- C7 (amended): permuting the rows of the input table leaves the engine's
output identical, provided no two rows of one group share a version ordinal
(with such duplicates the tied rows can surface in input order, as the
counterexample shows). -/
theorem claim_c7_order_invariance (T T' : List InRow) (hperm : T.Perm T')
    (hu : T.Pairwise uniqRel) :
    comparator_two_sided_merge T = comparator_two_sided_merge T' := by
  have hvperm : (validRows T).Perm (validRows T') := by
    apply List.Perm.filter
    exact (List.perm_insertionSort inputRel T).trans
      (hperm.trans (List.perm_insertionSort inputRel T').symm)
  have hgid : groupIdents T = groupIdents T' := by
    rw [groupIdents, groupIdents]
    apply eq_of_perm_sorted identRel
    · intro a _ b _ h1 h2
      exact identRel_antisymm h1 h2
    · exact (List.perm_insertionSort identRel _).trans
        (((hvperm.map (·.ident)).dedup).trans (List.perm_insertionSort identRel _).symm)
    · exact List.sorted_insertionSort identRel _
    · exact List.sorted_insertionSort identRel _
  have hgrp : ∀ kk, List.insertionSort rowRel (groupOf T kk)
      = List.insertionSort rowRel (groupOf T' kk) := by
    intro kk
    apply eq_of_perm_sorted rowRel
    · intro a ha b hb h1 h2
      by_cases hab : a = b
      · exact hab
      · have hpg := pairwise_uniq_groupSorted T kk hu
        have hur : uniqRel a b :=
          List.Pairwise.forall (fun x y hxy => uniqRel_symm hxy) hpg ha hb hab
        have hida := ident_of_mem_groupSorted ha
        have hidb := ident_of_mem_groupSorted hb
        have hnum : a.rowNum = b.rowNum := le_antisymm h1 h2
        exact absurd hnum (hur (hida.trans hidb.symm))
    · refine (List.perm_insertionSort rowRel _).trans (List.Perm.trans ?_
        (List.perm_insertionSort rowRel _).symm)
      rw [groupOf, groupOf]
      exact List.Perm.filter _ hvperm
    · exact List.sorted_insertionSort rowRel _
    · exact List.sorted_insertionSort rowRel _
  have hdiffs : all_diffs T = all_diffs T' := by
    rw [all_diffs, all_diffs, hgid]
    have hfun : (fun kk => pairsFromSorted kk (List.insertionSort rowRel (groupOf T kk)))
        = fun kk => pairsFromSorted kk (List.insertionSort rowRel (groupOf T' kk)) :=
      funext (fun kk => by rw [hgrp kk])
    rw [hfun]
  rw [comparator_two_sided_merge, comparator_two_sided_merge, hdiffs]

/-- C7 witness: swapping the two rows of `tableTwo` leaves the output
identical. -/
theorem claim_c7_witness :
    comparator_two_sided_merge tableTwo = comparator_two_sided_merge tableTwoSwapped :=
  claim_c7_order_invariance tableTwo tableTwoSwapped (by decide) (by decide)
